import Mathlib

/-!
# Verification of the `make.jobserver` token-brokering engine

Shallow embedding, in Lean 4, of the parts of the `python-make-jobserver`
repository that the frozen claims talk about:

* `make/jobserver/utils.py` — the flag codec (`should_run_submake`,
  `has_jobserver`, `replace_jobserver`, `fds_for_jobserver`);
* `make/jobserver/server.py` — the `JobServer` token-pool state machine
  (`_assign_token`, `_unassign_token`, `_get_next_token`, `_add_client`,
  `_del_client`, `cleanup_client`, the `poll` dispatch);
* `make/jobserver/proxy.py` — the `JobServerProxy` specialisation
  (`_grow_tokens`, `_shrink_tokens`, the overridden `_get_next_token`,
  the post-`poll` shrink, `cleanup`).

Strings are modelled as `List Char`; a Python `bytes` of length 1 is a `Nat`
(the byte value); Python dictionaries are association lists; a Python
function that can raise (`assert`, `KeyError`, `IndexError`,
`AttributeError`) returns an `Option`, with `none` for the raise.  The pipe
I/O itself (how many bytes are pending on a pipe, which descriptors are
ready) is environment input and appears as parameters of the operations.
-/

namespace MakeJobserver

/-! ## Flag codec: `should_run_submake` (utils.py lines 23-79)

The Python function is
`re.search(r'(?:^|\s)[^-]*(n|q)[^\s]*(\s|$)', make_flags)` followed by
`return True` when there is no match and `return not bool(r.groups()[0])`
when there is one.  Group 1 is the `(n|q)` group, so on a match
`r.groups()[0]` is the one-character string `'n'` or `'q'`, which is truthy;
hence the function returns `True` exactly when the regex does not match.

The regex is modelled piece by piece over `List Char`.  The character class
`\s` is modelled by the six ASCII whitespace characters it contains (the
model restricts attention to ASCII flag strings). -/

/-- The characters matched by the regex class `\s` (ASCII range). -/
def isWS (c : Char) : Bool :=
  c = ' ' || c = '\t' || c = '\n' || c = '\r' || c = '\x0b' || c = '\x0c'

/-- Does `[^-]*(n|q)` match a prefix of `s`?  The star may consume any
character except `'-'`; the group then requires an `'n'` or a `'q'`.
(The regex continues with `[^\s]*(\s|$)`, but that tail matches at every
position: the greedy `[^\s]*` stops exactly at the next whitespace or at the
end of the string, where `(\s|$)` succeeds; so it does not constrain the
search.) -/
def scanCluster : List Char → Bool
  | [] => false
  | c :: cs =>
    if c = 'n' || c = 'q' then true
    else if c = '-' then false
    else scanCluster cs

/-- Does the regex match with its `(?:^|\s)` anchor consuming a whitespace
character somewhere in `s`? -/
def searchWS : List Char → Bool
  | [] => false
  | c :: cs => (isWS c && scanCluster cs) || searchWS cs

/-- `re.search(r'(?:^|\s)[^-]*(n|q)[^\s]*(\s|$)', s)` as a Boolean:
the anchor is either the start of the string or any whitespace character. -/
def regexSearch (s : List Char) : Bool :=
  scanCluster s || searchWS s

/-- `utils.should_run_submake` (utils.py lines 74-79): `True` iff the regex
does not match (see the module comment for why the match branch always
returns `False`). -/
def should_run_submake (s : List Char) : Bool :=
  !(regexSearch s)

/-! ### The specification-side predicate for claim C6

"`f` contains a whitespace-delimited token that does not start with `'-'`
and whose short-flag cluster contains the letter `'n'` or `'q'`". -/

/-- Split a string into its whitespace-delimited tokens (each whitespace
character is a delimiter; empty tokens may appear between consecutive
delimiters and at the ends). -/
def splitWS : List Char → List (List Char)
  | [] => [[]]
  | c :: cs =>
    if isWS c then [] :: splitWS cs
    else
      match splitWS cs with
      | t :: ts => (c :: t) :: ts
      | [] => [[c]]

/-- The short-flag cluster of a token: its leading run of non-`'-'`
characters. -/
def shortCluster (t : List Char) : List Char :=
  t.takeWhile (fun c => c ≠ '-')

/-- A token disables execution when it does not start with `'-'` and its
short-flag cluster contains `'n'` or `'q'`. -/
def suppressToken : List Char → Bool
  | [] => false
  | c :: cs => c ≠ '-' && (shortCluster (c :: cs)).any (fun d => d = 'n' || d = 'q')

/-- The claim's condition on the whole flag string. -/
def specSuppressed (s : List Char) : Bool :=
  (splitWS s).any suppressToken

/-- One-pass scanner used to relate `regexSearch` and `specSuppressed`:
`blocked` records whether the current token has already contained a `'-'`
(so that later `n`/`q` characters are outside the short-flag cluster). -/
def specScan (blocked : Bool) : List Char → Bool
  | [] => false
  | c :: cs =>
    if isWS c then specScan false cs
    else if !blocked && (c = 'n' || c = 'q') then true
    else specScan (blocked || c = '-') cs

/-! ## Flag codec: the `--jobserver-fds` pattern (utils.py lines 82-126)

`_JOBSERVER_REGEX = '--jobserver-fds=([0-9]+),([0-9]+)'`.  The pattern is a
literal followed by two greedy digit groups separated by a comma; because
nothing follows the groups, greedy matching makes each group the maximal
digit run, so matching is deterministic: at a given start position the
pattern matches iff the literal is present there, followed by a non-empty
digit run, a `','`, and another non-empty digit run.  `re.search`/`re.sub`
take the leftmost position at which this succeeds. -/

/-- The literal head of `_JOBSERVER_REGEX`. -/
def jsLit : List Char := "--jobserver-fds=".toList

/-- Strip `p` from the front of `s`, or fail. -/
def stripLit : List Char → List Char → Option (List Char)
  | [], s => some s
  | _ :: _, [] => none
  | p :: ps, c :: cs => if p = c then stripLit ps cs else none

/-- Match `([0-9]+),([0-9]+)` at the start of `s1` (the part of the pattern
after the literal): on success return the two digit groups and the
remainder. -/
def digitTail (s1 : List Char) : Option (List Char × List Char × List Char) :=
  if (s1.takeWhile Char.isDigit).isEmpty then none
  else
    match stripLit [','] (s1.dropWhile Char.isDigit) with
    | none => none
    | some s2 =>
      if (s2.takeWhile Char.isDigit).isEmpty then none
      else some (s1.takeWhile Char.isDigit, s2.takeWhile Char.isDigit,
        s2.dropWhile Char.isDigit)

/-- Match `_JOBSERVER_REGEX` at the start of `s`: on success return the two
digit groups and the remainder of the string after the match. -/
def tryMatchG (s : List Char) : Option (List Char × List Char × List Char) :=
  match stripLit jsLit s with
  | none => none
  | some s1 => digitTail s1

/-- `_JOBSERVER_REGEX` with the literal's first `k` characters already
consumed (used to analyse how a partial literal match progresses). -/
def matchFromLit (k : Nat) (s : List Char) : Option (List Char × List Char × List Char) :=
  match stripLit (jsLit.drop k) s with
  | none => none
  | some s1 => digitTail s1

/-- `re.sub(_JOBSERVER_REGEX, e, s)` with explicit fuel (one unit per
scanned position; `s.length` always suffices): scan left to right; at each
position, if the pattern matches, emit the replacement `e` and continue
after the matched span, otherwise emit the character and move on.  (The
replacement strings appearing in this development contain no backslash, so
Python's template expansion of the replacement is the identity.) -/
def reSubFuel (e : List Char) : Nat → List Char → List Char
  | 0, s => s
  | _ + 1, [] => []
  | fuel + 1, c :: cs =>
    match tryMatchG (c :: cs) with
    | some (_, _, r) => e ++ reSubFuel e fuel r
    | none => c :: reSubFuel e fuel cs

/-- `re.sub(_JOBSERVER_REGEX, e, s)`. -/
def reSub (e s : List Char) : List Char :=
  reSubFuel e s.length s

/-- Python's `needle in hay` for strings: `startsWith` checks a prefix
match, `hasSub` tries every start position. -/
def startsWith : List Char → List Char → Bool
  | [], _ => true
  | _ :: _, [] => false
  | n :: ns, c :: cs => n = c && startsWith ns cs

def hasSub (needle : List Char) : List Char → Bool
  | [] => needle.isEmpty
  | c :: cs => startsWith needle (c :: cs) || hasSub needle cs

/-- `utils.has_jobserver` (utils.py lines 85-87): substring test. -/
def has_jobserver (f : List Char) : Bool :=
  hasSub ("--jobserver".toList) f

/-- `utils.replace_jobserver` (utils.py lines 90-105), with the local
`new_make_flags = re.sub(...)` inlined.  The `assert new_jobserver in
new_make_flags` is modelled by returning `none` when the substring test
fails. -/
def replace_jobserver (f e : List Char) : Option (List Char) :=
  if has_jobserver f then
    if hasSub e (reSub e f) then some (reSub e f) else none
  else some f

/-- `int()` on a digit string. -/
def parseNat (ds : List Char) : Nat :=
  ds.foldl (fun a c => a * 10 + (c.toNat - '0'.toNat)) 0

/-- `re.search(_JOBSERVER_REGEX, f)`: the two integers of the leftmost
match, if any. -/
def findJobserverFds : List Char → Option (Nat × Nat)
  | [] => none
  | c :: cs =>
    match tryMatchG (c :: cs) with
    | some (d1, d2, _) => some (parseNat d1, parseNat d2)
    | none => findJobserverFds cs

/-- `utils.fds_for_jobserver` (utils.py lines 108-126).  Result `some none`
models the `return None, None` branch; `some (some (rd, wr))` the
successful return (the code wraps the two descriptor numbers in file
objects via `os.fdopen`, an OS effect outside the embedding); `none` models
an `AssertionError` (`assert job_re`, `assert job_rd > 2`,
`assert job_wr > 2`). -/
def fds_for_jobserver (f : List Char) : Option (Option (Nat × Nat)) :=
  if has_jobserver f then
    match findJobserverFds f with
    | none => none
    | some (rd, wr) =>
      if 2 < rd then
        if 2 < wr then some (some (rd, wr)) else none
      else none
  else some none

/-- A full `--jobserver-fds=R,W` endpoint string. -/
def mkEndpoint (R W : List Char) : List Char :=
  jsLit ++ R ++ ',' :: W

/-- The shape of a well-formed replacement endpoint, as produced by
`JobServer.flags` / the callers of `replace_jobserver`:
`--jobserver-fds=R,W` with `R`, `W` non-empty digit strings. -/
def endpointForm (e : List Char) : Prop :=
  ∃ R W, R ≠ [] ∧ W ≠ [] ∧ (∀ c ∈ R, c.isDigit = true) ∧
    (∀ c ∈ W, c.isDigit = true) ∧ e = mkEndpoint R W

/-- "The string is empty or its first character is not a digit" — the shape
of every remainder `re.sub` leaves after a match (the second digit group is
maximal), preserved by the substitution itself. -/
def nonDigitHead (u : List Char) : Prop :=
  ∀ c t, u = c :: t → c.isDigit = false

/-! ## The `JobServer` state machine (server.py)

The token-bookkeeping state of a `JobServer`: the free pool `_tokens`
(order significant: `_get_next_token` takes the head, `_unassign_token`
appends at the end), the per-child token lists `cid2tokens`, and the
reverse map `token2cid`.  File objects, the poller registration and the
signal pipe carry no token state and are not modelled; a child id `cid`
is the numeric descriptor of its return pipe, a `Nat`. -/

structure SrvState where
  tokens : List Nat
  cid2tokens : List (Nat × List Nat)
  token2cid : List (Nat × Nat)
  deriving Repr, DecidableEq

/-- Python dict lookup `m[k]`, as an association-list search. -/
def lookupKey {β : Type} (k : Nat) : List (Nat × β) → Option β
  | [] => none
  | (k', v) :: rest => if k' = k then some v else lookupKey k rest

/-- Python dict assignment `m[k] = v`. -/
def setKey {β : Type} (k : Nat) (v : β) : List (Nat × β) → List (Nat × β)
  | [] => [(k, v)]
  | (k', v') :: rest => if k' = k then (k, v) :: rest else (k', v') :: setKey k v rest

/-- Python dict deletion `del m[k]`. -/
def delKey {β : Type} (k : Nat) : List (Nat × β) → List (Nat × β)
  | [] => []
  | (k', v') :: rest => if k' = k then rest else (k', v') :: delKey k rest

/-- `JobServer.__init__(num_tokens)` (server.py lines 30-53):
`self._tokens = [i for i in range(num_tokens)]`, empty maps. -/
def initServer (n : Nat) : SrvState :=
  ⟨List.range n, [], []⟩

/-- `JobServer._assign_token` (server.py lines 58-72).  The four `assert`s
become guards; on success the token moves from the free pool into the
child's list (appended at the end) and `token2cid` gains the pair.
(`self._tokens.remove(token)` removes the first occurrence.) -/
def assign_token (cid token : Nat) (s : SrvState) : Option SrvState :=
  if (lookupKey token s.token2cid).isSome then none
  else
    match lookupKey cid s.cid2tokens with
    | none => none
    | some lst =>
      if token ∈ lst then none
      else if token ∈ s.tokens then
        some { tokens := s.tokens.erase token,
               cid2tokens := setKey cid (lst ++ [token]) s.cid2tokens,
               token2cid := setKey token cid s.token2cid }
      else none

/-- `JobServer._unassign_token` (server.py lines 74-88).  The `assert`s
become guards; on success the token moves back to the free pool, appended
at the end (`self._tokens.append(token)`). -/
def unassign_token (cid token : Nat) (s : SrvState) : Option SrvState :=
  match lookupKey token s.token2cid with
  | none => none
  | some c =>
    if c = cid then
      match lookupKey cid s.cid2tokens with
      | none => none
      | some lst =>
        if token ∈ lst then
          if token ∈ s.tokens then none
          else
            some { tokens := s.tokens ++ [token],
                   cid2tokens := setKey cid (lst.erase token) s.cid2tokens,
                   token2cid := delKey token s.token2cid }
        else none
    else none

/-- `JobServer._add_client` / `create_client` (server.py lines 90-110,
133-154): registers a fresh child with an empty token list.  Freshness of
`cid` is the operating system's guarantee (a live descriptor number is
unique; the `assert ... not in self.fileobj2cid` checks enforce it), so a
colliding `cid` is ruled out by a guard. -/
def add_client (cid : Nat) (s : SrvState) : Option SrvState :=
  if (lookupKey cid s.cid2tokens).isSome then none
  else some { s with cid2tokens := s.cid2tokens ++ [(cid, [])] }

/-- `JobServer._del_client` (server.py lines 112-121): drops the record
(whatever tokens its list still holds). -/
def del_client (cid : Nat) (s : SrvState) : Option SrvState :=
  match lookupKey cid s.cid2tokens with
  | none => none
  | some _ => some { s with cid2tokens := delKey cid s.cid2tokens }

/-- `JobServer._get_next_token` (server.py lines 123-127): `None` when the
pool is empty, otherwise `self._tokens[0]` — the head of the free list. -/
def get_next_token (s : SrvState) : Option Nat :=
  s.tokens.head?

/-- The `EPOLLOUT` branch of `JobServer.poll` (server.py lines 240-264) in
the case the claims are about: the grant pipe is writable and
`output_waiting` is `0`.  A `None` from `_get_next_token` just skips
(`continue`); a successful pick is assigned and one byte written (the
write, and the non-fatal `BrokenPipeError`, carry no token state). -/
def pollGrant (cid : Nat) (s : SrvState) : Option SrvState :=
  match get_next_token s with
  | none => some s
  | some t => assign_token cid t s

/-- The `EPOLLIN` branch of `JobServer.poll` (server.py lines 229-238):
one byte read from the return pipe, `token = self.cid2tokens[cid][0]`
(an `IndexError` — `none` — if the child holds nothing), then
`_unassign_token`. -/
def pollReturn (cid : Nat) (s : SrvState) : Option SrvState :=
  match lookupKey cid s.cid2tokens with
  | none => none
  | some [] => none
  | some (t :: _) => unassign_token cid t s

/-- The two draining loops of `JobServer.cleanup_client` (server.py lines
168-194): each byte found on the return pipe or on the drain copy of the
grant pipe reclaims `self.cid2tokens[cid][0]`.  The byte counts are
environment input. -/
def unassignHeadN (cid : Nat) : Nat → SrvState → Option SrvState
  | 0, s => some s
  | n + 1, s =>
    match lookupKey cid s.cid2tokens with
    | none => none
    | some [] => none
    | some (t :: _) =>
      match unassign_token cid t s with
      | none => none
      | some s' => unassignHeadN cid n s'

/-- The final reclaim loop of `JobServer.cleanup_client` (server.py lines
200-203), modelled faithfully to CPython's list-iterator semantics:
`current_tokens = self.cid2tokens[cid]` aliases the live list, and the
`for token in current_tokens` loop advances an index over that list while
`_unassign_token` removes elements from it — so after removing the element
at index `i`, the iterator proceeds to index `i + 1` of the *shrunk* list.
`fuel` only bounds the recursion (`length + 1` always suffices). -/
def iterUnassign (cid : Nat) : Nat → Nat → SrvState → Option SrvState
  | 0, _, s => some s
  | fuel + 1, i, s =>
    match lookupKey cid s.cid2tokens with
    | none => none
    | some cur =>
      if h : i < cur.length then
        match unassign_token cid (cur.get ⟨i, h⟩) s with
        | none => none
        | some s' => iterUnassign cid fuel (i + 1) s'
      else some s

/-- `JobServer.cleanup_client` (server.py lines 156-205): drain the return
pipe (`retBytes` bytes before EOF), drain the grant pipe's buffered grants
(`drainBytes` bytes, per `output_waiting`), then
`assert allow_tokens or len(current_tokens) == 0` and the final reclaim
loop, then `_del_client`. -/
def cleanup_client (cid retBytes drainBytes : Nat) (allow : Bool)
    (s : SrvState) : Option SrvState :=
  match unassignHeadN cid retBytes s with
  | none => none
  | some s1 =>
    match unassignHeadN cid drainBytes s1 with
    | none => none
    | some s2 =>
      match lookupKey cid s2.cid2tokens with
      | none => none
      | some cur =>
        if !allow && !cur.isEmpty then none
        else
          match iterUnassign cid (cur.length + 1) 0 s2 with
          | none => none
          | some s3 => del_client cid s3

/-- The operations a `JobServer` undergoes: child registration, the two
`poll` branches, and `cleanup_client`.  The pipe-byte counts of
`cleanup_client` are part of the operation (environment input). -/
inductive SOp where
  | addClient (cid : Nat)
  | grant (cid : Nat)
  | ret (cid : Nat)
  | cleanup (cid retBytes drainBytes : Nat) (allow : Bool)
  deriving Repr, DecidableEq

def sstep : SOp → SrvState → Option SrvState
  | SOp.addClient cid, s => add_client cid s
  | SOp.grant cid, s => pollGrant cid s
  | SOp.ret cid, s => pollReturn cid s
  | SOp.cleanup cid r d allow, s => cleanup_client cid r d allow s

def runS : List SOp → SrvState → Option SrvState
  | [], s => some s
  | op :: ops, s =>
    match sstep op s with
    | none => none
    | some s' => runS ops s'

/-- Claim C1's invariant on a server with pool size `n`: the free list and
the per-child lists together are a permutation of `[0, n)` (hence pairwise
disjoint, each duplicate-free, and their union exactly the full range), and
`token2cid t = c` holds iff `t` is in child `c`'s list. -/
def TokenInv (n : Nat) (s : SrvState) : Prop :=
  (s.tokens ++ (s.cid2tokens.map Prod.snd).flatten).Perm (List.range n) ∧
  (∀ t c, lookupKey t s.token2cid = some c ↔
    ∃ lst, lookupKey c s.cid2tokens = some lst ∧ t ∈ lst)

/-! ## The `JobServerProxy` state machine (proxy.py)

On top of the inherited server state: `token2bytes` maps each minted
internal token id to the byte received from the upstream client for it.
The upstream client is modelled by the byte sequence it still has to vend
(`upPending`; `get_token` pops the head, or returns `None` when empty) and
the bytes returned to it so far (`upReturned`; `return_token` appends) —
this is exactly the "fake upstream Client that vends bytes" of the spec's
test scenarios; the concrete client class the tests instantiate
(`client.JobServerClient`) is not part of the sources. -/

structure PxState where
  srv : SrvState
  token2bytes : List (Nat × Nat)
  upPending : List Nat
  upReturned : List Nat
  deriving Repr, DecidableEq

/-- `JobServerProxy.__init__` (proxy.py lines 7-10): an empty pool
(`JobServer.__init__(self, 0)`), no recorded bytes. -/
def pinit (vended : List Nat) : PxState :=
  ⟨initServer 0, [], vended, []⟩

/-- The minting loop of `_grow_tokens` (proxy.py lines 21-23):
`tid = 0; while tid in self.token2bytes: tid += 1`.  `fuel` bounds the
recursion; `m.length + 1` always reaches the first unused id. -/
def mintFrom (m : List (Nat × Nat)) : Nat → Nat → Nat
  | 0, tid => tid
  | fuel + 1, tid => if (lookupKey tid m).isSome then mintFrom m fuel (tid + 1) else tid

def mintTid (m : List (Nat × Nat)) : Nat :=
  mintFrom m (m.length + 1) 0

/-- `JobServerProxy._grow_tokens` (proxy.py lines 12-28): ask the upstream
client for a token; on `None`, log and return unchanged; otherwise mint the
smallest unused id, `assert tid not in self.token2bytes` (a guard), record
the byte under it and append the id to the free pool. -/
def grow_tokens (s : PxState) : Option PxState :=
  match s.upPending with
  | [] => some s
  | b :: rest =>
    let tid := mintTid s.token2bytes
    if (lookupKey tid s.token2bytes).isSome then none
    else
      some { s with upPending := rest,
                    token2bytes := setKey tid b s.token2bytes,
                    srv := { s.srv with tokens := s.srv.tokens ++ [tid] } }

/-- The body of one `_shrink_tokens` iteration (proxy.py lines 33-36):
delete the byte mapping, return the byte to the upstream client, and remove
`tid` from the live free list (`list.remove`: first occurrence). -/
def shrinkStep (tid b : Nat) (s : PxState) : PxState :=
  { s with token2bytes := delKey tid s.token2bytes,
           upReturned := s.upReturned ++ [b],
           srv := { s.srv with tokens := s.srv.tokens.erase tid } }

/-- The loop of `JobServerProxy._shrink_tokens` (proxy.py lines 30-38),
driven by the copy `tokens = list(self._tokens)` taken at entry: for each
`tid`, look the byte up (`KeyError` → `none`) and run `shrinkStep`. -/
def shrinkLoop : List Nat → PxState → Option PxState
  | [], s => some s
  | tid :: rest, s =>
    match lookupKey tid s.token2bytes with
    | none => none
    | some b => shrinkLoop rest (shrinkStep tid b s)

/-- `JobServerProxy._shrink_tokens` (proxy.py lines 30-38). -/
def shrink_tokens (s : PxState) : Option PxState :=
  shrinkLoop s.srv.tokens s

/-- The `finally` clause of `JobServerProxy.poll` (proxy.py lines 45-50):
after every poll cycle, `if len(self._tokens) > 1: self._shrink_tokens()`. -/
def pollEndShrink (s : PxState) : Option PxState :=
  if 1 < s.srv.tokens.length then shrink_tokens s else some s

/-- The proxy's `EPOLLOUT` grant: the overridden `_get_next_token`
(proxy.py lines 40-43) grows the pool from the upstream client when it is
empty, then defers to the base implementation (head of the free list);
the rest is the inherited `poll` branch. -/
def pxGrant (cid : Nat) (s : PxState) : Option PxState :=
  match (if s.srv.tokens.isEmpty then grow_tokens s else some s) with
  | none => none
  | some s1 =>
    match get_next_token s1.srv with
    | none => some s1
    | some t =>
      match assign_token cid t s1.srv with
      | none => none
      | some srv' => some { s1 with srv := srv' }

/-- The inherited `EPOLLIN` branch on the proxy. -/
def pxReturn (cid : Nat) (s : PxState) : Option PxState :=
  match pollReturn cid s.srv with
  | none => none
  | some srv' => some { s with srv := srv' }

/-- The inherited child registration on the proxy. -/
def pxAddClient (cid : Nat) (s : PxState) : Option PxState :=
  match add_client cid s.srv with
  | none => none
  | some srv' => some { s with srv := srv' }

/-- The operations a `JobServerProxy` undergoes between poll cycles. -/
inductive POp where
  | addClient (cid : Nat)
  | grant (cid : Nat)
  | ret (cid : Nat)
  | pollEnd
  deriving Repr, DecidableEq

def pstep : POp → PxState → Option PxState
  | POp.addClient cid, s => pxAddClient cid s
  | POp.grant cid, s => pxGrant cid s
  | POp.ret cid, s => pxReturn cid s
  | POp.pollEnd, s => pollEndShrink s

def runP : List POp → PxState → Option PxState
  | [], s => some s
  | op :: ops, s =>
    match pstep op s with
    | none => none
    | some s' => runP ops s'

/-- All bytes the proxy is accountable for: already returned upstream,
currently recorded against an internal token id, or still unvended by the
upstream client. -/
def bytesOf (s : PxState) : List Nat :=
  s.upReturned ++ s.token2bytes.map Prod.snd ++ s.upPending

/-- The methods the class body of `JobServer` (server.py lines 22-266)
defines.  `JobServerProxy.cleanup` (proxy.py lines 52-53) begins with
`server.JobServer.cleanup(self, allow_tokens, log)` — an attribute lookup
on this class. -/
def jobServerMethods : List String :=
  ["__init__", "_clear_logger", "_assign_token", "_unassign_token",
   "_add_client", "_del_client", "_get_next_token", "tokens",
   "create_client", "cleanup_client", "flags", "poll"]

/-- The trailing loop of `JobServerProxy.cleanup` (proxy.py lines 55-58):
`while len(self._tokens) > 1: self._shrink_tokens()`. -/
def cleanupShrinkWhile : Nat → PxState → Option PxState
  | 0, s => some s
  | fuel + 1, s =>
    if 1 < s.srv.tokens.length then
      match shrink_tokens s with
      | none => none
      | some s' => cleanupShrinkWhile fuel s'
    else some s

/-- `JobServerProxy.cleanup` (proxy.py lines 52-58).  Its first statement
resolves the attribute `cleanup` on the class `JobServer`; if that lookup
failed the call would raise `AttributeError` (modelled as `none`) before
any token state changes.  Were the attribute present, the remainder of the
method is the shrink-while loop above (the inherited teardown itself is not
in the sources). -/
def proxy_cleanup (s : PxState) : Option PxState :=
  if jobServerMethods.contains "cleanup" then
    cleanupShrinkWhile (s.srv.tokens.length + 1) s
  else none

/-! ## Helper lemmas -/

theorem specScan_eq_regex (cs : List Char) :
    specScan false cs = regexSearch cs ∧ specScan true cs = searchWS cs := by
  induction cs with
  | nil => exact ⟨rfl, rfl⟩
  | cons c cs ih =>
    obtain ⟨ih₁, ih₂⟩ := ih
    by_cases hws : isWS c = true
    · have hn : c ≠ 'n' := by rintro rfl; exact absurd hws (by decide)
      have hq : c ≠ 'q' := by rintro rfl; exact absurd hws (by decide)
      have hd : c ≠ '-' := by rintro rfl; exact absurd hws (by decide)
      have e₂ : scanCluster (c :: cs) = scanCluster cs := by
        simp [scanCluster, hn, hq, hd]
      constructor
      · show specScan false (c :: cs) = regexSearch (c :: cs)
        have e₁ : specScan false (c :: cs) = specScan false cs := by
          simp [specScan, hws]
        rw [e₁, ih₁]
        simp only [regexSearch, searchWS, e₂, hws, Bool.true_and]
        cases scanCluster cs <;> cases searchWS cs <;> rfl
      · show specScan true (c :: cs) = searchWS (c :: cs)
        have e₁ : specScan true (c :: cs) = specScan false cs := by
          simp [specScan, hws]
        rw [e₁, ih₁]
        simp only [regexSearch, searchWS, hws, Bool.true_and]
    · have hwsf : isWS c = false := by revert hws; cases isWS c <;> simp
      by_cases hnq : c = 'n' ∨ c = 'q'
      · have hnqb : (decide (c = 'n') || decide (c = 'q')) = true := by
          rcases hnq with rfl | rfl <;> simp
        constructor
        · show specScan false (c :: cs) = regexSearch (c :: cs)
          have e₁ : specScan false (c :: cs) = true := by
            simp [specScan, hwsf, hnqb]
          have e₂ : scanCluster (c :: cs) = true := by
            simp [scanCluster, hnqb]
          simp [regexSearch, e₁, e₂]
        · show specScan true (c :: cs) = searchWS (c :: cs)
          have e₁ : specScan true (c :: cs) = specScan true cs := by
            rcases hnq with rfl | rfl <;> simp [specScan, hwsf]
          rw [e₁, ih₂]
          simp [searchWS, hwsf]
      · have hn : c ≠ 'n' := fun h => hnq (Or.inl h)
        have hq : c ≠ 'q' := fun h => hnq (Or.inr h)
        have hnqb : (decide (c = 'n') || decide (c = 'q')) = false := by
          simp [hn, hq]
        have eW : searchWS (c :: cs) = searchWS cs := by
          simp [searchWS, hwsf]
        by_cases hd : c = '-'
        · subst hd
          constructor
          · show specScan false ('-' :: cs) = regexSearch ('-' :: cs)
            have e₁ : specScan false ('-' :: cs) = specScan true cs := by
              simp [specScan, hwsf, hnqb]
            have e₂ : scanCluster ('-' :: cs) = false := by
              simp [scanCluster, hnqb]
            rw [e₁, ih₂]
            simp [regexSearch, e₂, eW]
          · show specScan true ('-' :: cs) = searchWS ('-' :: cs)
            have e₁ : specScan true ('-' :: cs) = specScan true cs := by
              simp [specScan, hwsf, hnqb]
            rw [e₁, ih₂, eW]
        · have e₂ : scanCluster (c :: cs) = scanCluster cs := by
            simp [scanCluster, hn, hq, hd]
          constructor
          · show specScan false (c :: cs) = regexSearch (c :: cs)
            have e₁ : specScan false (c :: cs) = specScan false cs := by
              simp [specScan, hwsf, hnqb, hd]
            rw [e₁, ih₁]
            simp [regexSearch, e₂, eW]
          · show specScan true (c :: cs) = searchWS (c :: cs)
            have e₁ : specScan true (c :: cs) = specScan true cs := by
              simp [specScan, hwsf, hnqb]
            rw [e₁, ih₂, eW]

theorem splitWS_shape (cs : List Char) : ∃ t ts, splitWS cs = t :: ts := by
  cases cs with
  | nil => exact ⟨[], [], rfl⟩
  | cons d ds =>
    by_cases h : isWS d = true
    · exact ⟨[], splitWS ds, by simp [splitWS, h]⟩
    · have hf : isWS d = false := by revert h; cases isWS d <;> simp
      cases hm : splitWS ds with
      | nil => exact ⟨[d], [], by simp [splitWS, hf, hm]⟩
      | cons t ts => exact ⟨d :: t, ts, by simp [splitWS, hf, hm]⟩

theorem specScan_eq_spec (cs : List Char) :
    specScan false cs = specSuppressed cs ∧
      specScan true cs = ((splitWS cs).drop 1).any suppressToken := by
  induction cs with
  | nil => exact ⟨rfl, rfl⟩
  | cons c cs ih =>
    obtain ⟨ih₁, ih₂⟩ := ih
    by_cases hws : isWS c = true
    · have eS : splitWS (c :: cs) = [] :: splitWS cs := by simp [splitWS, hws]
      constructor
      · show specScan false (c :: cs) = specSuppressed (c :: cs)
        have e₁ : specScan false (c :: cs) = specScan false cs := by
          simp [specScan, hws]
        rw [e₁, ih₁]
        simp [specSuppressed, eS, suppressToken]
      · show specScan true (c :: cs) = ((splitWS (c :: cs)).drop 1).any suppressToken
        have e₁ : specScan true (c :: cs) = specScan false cs := by
          simp [specScan, hws]
        rw [e₁, ih₁, eS]
        rfl
    · have hwsf : isWS c = false := by revert hws; cases isWS c <;> simp
      obtain ⟨t, ts, hts⟩ := splitWS_shape cs
      have eS : splitWS (c :: cs) = (c :: t) :: ts := by simp [splitWS, hwsf, hts]
      have hblocked : specScan true (c :: cs) = specScan true cs := by
        by_cases hnq : c = 'n' ∨ c = 'q'
        · rcases hnq with rfl | rfl <;> simp [specScan, hwsf]
        · have hn : c ≠ 'n' := fun h => hnq (Or.inl h)
          have hq : c ≠ 'q' := fun h => hnq (Or.inr h)
          simp [specScan, hwsf, hn, hq]
      refine ⟨?_, ?_⟩
      · show specScan false (c :: cs) = specSuppressed (c :: cs)
        by_cases hnq : c = 'n' ∨ c = 'q'
        · have hd : c ≠ '-' := by rcases hnq with rfl | rfl <;> decide
          have e₁ : specScan false (c :: cs) = true := by
            rcases hnq with rfl | rfl <;> simp [specScan, hwsf]
          have e₂ : suppressToken (c :: t) = true := by
            have hcl : shortCluster (c :: t) = c :: shortCluster t := by
              simp [shortCluster, List.takeWhile, hd]
            rcases hnq with rfl | rfl <;> simp [suppressToken, hcl]
          simp [specSuppressed, eS, e₁, e₂]
        · have hn : c ≠ 'n' := fun h => hnq (Or.inl h)
          have hq : c ≠ 'q' := fun h => hnq (Or.inr h)
          by_cases hd : c = '-'
          · subst hd
            have e₁ : specScan false ('-' :: cs) = specScan true cs := by
              simp [specScan, hwsf, hn, hq]
            have e₂ : suppressToken ('-' :: t) = false := by
              simp [suppressToken]
            rw [e₁, ih₂, hts]
            simp [specSuppressed, eS, e₂]
          · have e₁ : specScan false (c :: cs) = specScan false cs := by
              simp [specScan, hwsf, hn, hq, hd]
            have e₂ : suppressToken (c :: t) = suppressToken t := by
              cases t with
              | nil => simp [suppressToken, shortCluster, List.takeWhile, hd, hn, hq]
              | cons d ds =>
                by_cases hdd : d = '-'
                · subst hdd
                  simp [suppressToken, shortCluster, List.takeWhile, hd, hn, hq]
                · simp [suppressToken, shortCluster, List.takeWhile, hd, hdd, hn, hq]
            rw [e₁, ih₁]
            simp [specSuppressed, eS, e₂, hts]
      · show specScan true (c :: cs) = ((splitWS (c :: cs)).drop 1).any suppressToken
        rw [hblocked, ih₂, hts, eS]
        rfl

theorem regexSearch_eq_specSuppressed (s : List Char) :
    regexSearch s = specSuppressed s := by
  have h₁ := (specScan_eq_regex s).1
  have h₂ := (specScan_eq_spec s).1
  rw [← h₁, h₂]

theorem stripLit_length {p s t : List Char} (h : stripLit p s = some t) :
    s.length = p.length + t.length := by
  induction p generalizing s with
  | nil => cases h; simp
  | cons a ps ih =>
    cases s with
    | nil => exact absurd h (by simp [stripLit])
    | cons c cs =>
      by_cases hac : a = c
      · subst hac
        simp only [stripLit, if_pos rfl] at h
        have := ih h
        simp [this]
        omega
      · simp [stripLit, hac] at h

theorem length_takeWhile_add_dropWhile (p : Char → Bool) (l : List Char) :
    (l.takeWhile p).length + (l.dropWhile p).length = l.length := by
  rw [← List.length_append, List.takeWhile_append_dropWhile]

theorem length_dropWhile_lt {p : Char → Bool} {l : List Char}
    (h : ¬(l.takeWhile p).isEmpty) : (l.dropWhile p).length < l.length := by
  have hsum := length_takeWhile_add_dropWhile p l
  have hpos : 0 < (l.takeWhile p).length := by
    cases htw : l.takeWhile p with
    | nil => exact absurd (by simp [htw]) h
    | cons a t => simp [htw]
  omega

theorem digitTail_length {s1 d1 d2 r : List Char}
    (h : digitTail s1 = some (d1, d2, r)) : r.length < s1.length := by
  unfold digitTail at h
  by_cases h1 : (s1.takeWhile Char.isDigit).isEmpty
  · rw [if_pos h1] at h; exact absurd h (by simp)
  · rw [if_neg h1] at h
    have hr1 : (s1.dropWhile Char.isDigit).length < s1.length :=
      length_dropWhile_lt h1
    cases hr2 : stripLit [','] (s1.dropWhile Char.isDigit) with
    | none => rw [hr2] at h; exact absurd h (by simp)
    | some s2 =>
      rw [hr2] at h
      simp only at h
      by_cases h2 : (s2.takeWhile Char.isDigit).isEmpty
      · rw [if_pos h2] at h; exact absurd h (by simp)
      · rw [if_neg h2] at h
        have hrr : r = s2.dropWhile Char.isDigit := by
          cases h; rfl
        have h2sum := length_takeWhile_add_dropWhile Char.isDigit s2
        have hcomma : (s1.dropWhile Char.isDigit).length = 1 + s2.length :=
          stripLit_length hr2
        rw [hrr]
        omega

theorem tryMatchG_length {s : List Char} {d1 d2 r : List Char}
    (h : tryMatchG s = some (d1, d2, r)) : r.length < s.length := by
  unfold tryMatchG at h
  cases hstrip : stripLit jsLit s with
  | none => rw [hstrip] at h; exact absurd h (by simp)
  | some s1 =>
    rw [hstrip] at h
    have hlen : s.length = jsLit.length + s1.length := stripLit_length hstrip
    have := digitTail_length h
    omega

theorem reSubFuel_congr (e : List Char) :
    ∀ f₁ f₂ s, s.length ≤ f₁ → s.length ≤ f₂ → reSubFuel e f₁ s = reSubFuel e f₂ s := by
  intro f₁
  induction f₁ with
  | zero =>
    intro f₂ s h1 _
    have hs : s = [] := List.eq_nil_of_length_eq_zero (Nat.le_zero.mp h1)
    subst hs
    cases f₂ <;> rfl
  | succ f ih =>
    intro f₂ s h1 h2
    cases s with
    | nil => cases f₂ <;> rfl
    | cons c cs =>
      cases f₂ with
      | zero => simp at h2
      | succ f₂' =>
        cases hm : tryMatchG (c :: cs) with
        | some trip =>
          obtain ⟨d1, d2, r⟩ := trip
          have hr := tryMatchG_length hm
          simp only [reSubFuel, hm]
          rw [ih f₂' r (by simp at h1 hr ⊢; omega) (by simp at h2 hr ⊢; omega)]
        | none =>
          simp only [reSubFuel, hm]
          rw [ih f₂' cs (by simp at h1 ⊢; omega) (by simp at h2 ⊢; omega)]

theorem reSub_cons_match {e d1 d2 : List Char} {cs r : List Char} {ch : Char}
    (h : tryMatchG (ch :: cs) = some (d1, d2, r)) :
    reSub e (ch :: cs) = e ++ reSub e r := by
  have hr := tryMatchG_length h
  show reSubFuel e (ch :: cs).length (ch :: cs) = e ++ reSubFuel e r.length r
  simp only [List.length_cons, reSubFuel, h]
  rw [reSubFuel_congr e cs.length r.length r (by simp at hr; omega) le_rfl]

theorem reSub_cons_nomatch {e : List Char} {cs : List Char} {ch : Char}
    (h : tryMatchG (ch :: cs) = none) :
    reSub e (ch :: cs) = ch :: reSub e cs := by
  show reSubFuel e (ch :: cs).length (ch :: cs) = ch :: reSubFuel e cs.length cs
  simp only [List.length_cons, reSubFuel, h]

theorem startsWith_trans : ∀ a b s : List Char,
    startsWith a b = true → startsWith b s = true → startsWith a s = true := by
  intro a
  induction a with
  | nil => intro b s _ _; rfl
  | cons x xs ih =>
    intro b s h1 h2
    cases b with
    | nil => exact absurd h1 (by simp [startsWith])
    | cons y bs =>
      simp only [startsWith, Bool.and_eq_true, decide_eq_true_eq] at h1
      obtain ⟨rfl, h1'⟩ := h1
      cases s with
      | nil => exact absurd h2 (by simp [startsWith])
      | cons z zs =>
        simp only [startsWith, Bool.and_eq_true, decide_eq_true_eq] at h2
        obtain ⟨rfl, h2'⟩ := h2
        simp only [startsWith, Bool.and_eq_true, decide_eq_true_eq]
        exact ⟨by simp, ih bs zs h1' h2'⟩

theorem stripLit_isSome_eq_startsWith : ∀ p s : List Char,
    (stripLit p s).isSome = startsWith p s := by
  intro p
  induction p with
  | nil => intro s; rfl
  | cons a ps ih =>
    intro s
    cases s with
    | nil => rfl
    | cons c cs =>
      by_cases hac : a = c
      · subst hac
        simp [stripLit, startsWith, ih]
      · simp [stripLit, startsWith, hac]

theorem hasSub_of_startsWith {needle s : List Char} (h : startsWith needle s = true) :
    hasSub needle s = true := by
  cases s with
  | nil =>
    cases needle with
    | nil => rfl
    | cons x xs => exact absurd h (by simp [startsWith])
  | cons c cs => simp [hasSub, h]

theorem hasSub_tail {needle : List Char} {c : Char} {cs : List Char}
    (h : hasSub needle cs = true) : hasSub needle (c :: cs) = true := by
  simp [hasSub, h]

theorem has_jobserver_of_find {f : List Char} {x : Nat × Nat}
    (h : findJobserverFds f = some x) : has_jobserver f = true := by
  induction f with
  | nil => exact absurd h (by simp [findJobserverFds])
  | cons c cs ih =>
    unfold findJobserverFds at h
    cases hm : tryMatchG (c :: cs) with
    | some trip =>
      have hstrip : (stripLit jsLit (c :: cs)).isSome = true := by
        unfold tryMatchG at hm
        cases hs : stripLit jsLit (c :: cs) with
        | none => rw [hs] at hm; exact absurd hm (by simp)
        | some s1 => rfl
      rw [stripLit_isSome_eq_startsWith] at hstrip
      have hsw : startsWith ("--jobserver".toList) (c :: cs) = true :=
        startsWith_trans _ jsLit _ (by decide) hstrip
      exact hasSub_of_startsWith hsw
    | none =>
      rw [hm] at h
      exact hasSub_tail (ih h)

theorem shrinkLoop_spec :
    ∀ (l : List Nat) (s s' : PxState), s.srv.tokens = l → shrinkLoop l s = some s' →
      s'.srv.tokens = [] ∧ s'.upReturned.length = s.upReturned.length + l.length := by
  intro l
  induction l with
  | nil =>
    intro s s' htk h
    cases h
    exact ⟨htk, by simp⟩
  | cons tid rest ih =>
    intro s s' htk h
    unfold shrinkLoop at h
    cases hb : lookupKey tid s.token2bytes with
    | none => rw [hb] at h; exact absurd h (by simp)
    | some b =>
      rw [hb] at h
      have h2 : (shrinkStep tid b s).srv.tokens = rest := by
        simp only [shrinkStep, htk]
        exact List.erase_cons_head tid rest
      obtain ⟨ha, hlen⟩ := ih _ s' h2 h
      refine ⟨ha, ?_⟩
      simp [shrinkStep] at hlen ⊢
      omega

theorem setKey_of_lookup_none {β : Type} {k : Nat} {v : β} :
    ∀ {m : List (Nat × β)}, lookupKey k m = none → setKey k v m = m ++ [(k, v)] := by
  intro m
  induction m with
  | nil => intro _; rfl
  | cons p rest ih =>
    obtain ⟨k', v'⟩ := p
    intro h
    by_cases hk : k' = k
    · subst hk; simp [lookupKey] at h
    · simp only [lookupKey, if_neg hk] at h
      simp [setKey, hk, ih h]

theorem map_snd_delKey_perm {β : Type} {k : Nat} {b : β} :
    ∀ {m : List (Nat × β)}, lookupKey k m = some b →
      (m.map Prod.snd).Perm (b :: (delKey k m).map Prod.snd) := by
  intro m
  induction m with
  | nil => intro h; simp [lookupKey] at h
  | cons p rest ih =>
    obtain ⟨k', v'⟩ := p
    intro h
    by_cases hk : k' = k
    · subst hk
      have h' : v' = b := by simpa [lookupKey] using h
      subst h'
      simp [delKey]
    · simp only [lookupKey, if_neg hk] at h
      simp only [delKey, if_neg hk, List.map_cons]
      exact (List.Perm.cons v' (ih h)).trans (List.Perm.swap b v' _)

theorem grow_bytes_eq {s s' : PxState} (h : grow_tokens s = some s') :
    bytesOf s' = bytesOf s := by
  unfold grow_tokens at h
  cases hp : s.upPending with
  | nil => rw [hp] at h; cases h; rfl
  | cons b rest =>
    rw [hp] at h
    simp only at h
    by_cases hf : (lookupKey (mintTid s.token2bytes) s.token2bytes).isSome
    · rw [if_pos hf] at h; exact absurd h (by simp)
    · rw [if_neg hf] at h
      cases h
      have hnone : lookupKey (mintTid s.token2bytes) s.token2bytes = none := by
        revert hf
        cases lookupKey (mintTid s.token2bytes) s.token2bytes <;> simp
      simp [bytesOf, setKey_of_lookup_none hnone, hp, List.append_assoc]

theorem shrinkLoop_bytes_perm :
    ∀ (l : List Nat) (s s' : PxState), shrinkLoop l s = some s' →
      (bytesOf s').Perm (bytesOf s) := by
  intro l
  induction l with
  | nil => intro s s' h; cases h; exact List.Perm.refl _
  | cons tid rest ih =>
    intro s s' h
    unfold shrinkLoop at h
    cases hb : lookupKey tid s.token2bytes with
    | none => rw [hb] at h; exact absurd h (by simp)
    | some b =>
      rw [hb] at h
      have hstep : (bytesOf (shrinkStep tid b s)).Perm (bytesOf s) := by
        have hvals := map_snd_delKey_perm hb
        have hshape : bytesOf (shrinkStep tid b s) =
            (s.upReturned ++ b :: (delKey tid s.token2bytes).map Prod.snd) ++
              s.upPending := by
          simp [bytesOf, shrinkStep, List.append_assoc]
        rw [hshape]
        have hmid : (s.upReturned ++ b :: (delKey tid s.token2bytes).map Prod.snd).Perm
            (s.upReturned ++ s.token2bytes.map Prod.snd) :=
          List.Perm.append_left s.upReturned hvals.symm
        exact hmid.append_right s.upPending
      exact (ih _ _ h).trans hstep

theorem pstep_bytes_perm :
    ∀ (op : POp) (s s' : PxState), pstep op s = some s' →
      (bytesOf s').Perm (bytesOf s) := by
  intro op s s' h
  cases op with
  | addClient cid =>
    simp only [pstep] at h
    unfold pxAddClient at h
    cases ha : add_client cid s.srv with
    | none => rw [ha] at h; exact absurd h (by simp)
    | some srv' =>
      rw [ha] at h
      cases h
      exact List.Perm.refl _
  | grant cid =>
    simp only [pstep] at h
    unfold pxGrant at h
    cases hg : (if s.srv.tokens.isEmpty then grow_tokens s else some s) with
    | none => rw [hg] at h; exact absurd h (by simp)
    | some s1 =>
      rw [hg] at h
      simp only at h
      have heq : bytesOf s1 = bytesOf s := by
        by_cases he : s.srv.tokens.isEmpty
        · rw [if_pos he] at hg; exact grow_bytes_eq hg
        · rw [if_neg he] at hg; cases hg; rfl
      cases hn : get_next_token s1.srv with
      | none =>
        rw [hn] at h
        cases h
        rw [heq]
      | some t =>
        rw [hn] at h
        simp only at h
        cases hasg : assign_token cid t s1.srv with
        | none => rw [hasg] at h; exact absurd h (by simp)
        | some srv' =>
          rw [hasg] at h
          cases h
          show (bytesOf s1).Perm (bytesOf s)
          rw [heq]
  | ret cid =>
    simp only [pstep] at h
    unfold pxReturn at h
    cases hr : pollReturn cid s.srv with
    | none => rw [hr] at h; exact absurd h (by simp)
    | some srv' =>
      rw [hr] at h
      cases h
      exact List.Perm.refl _
  | pollEnd =>
    simp only [pstep] at h
    unfold pollEndShrink at h
    by_cases hl : 1 < s.srv.tokens.length
    · rw [if_pos hl] at h
      exact shrinkLoop_bytes_perm _ _ _ h
    · rw [if_neg hl] at h
      cases h
      exact List.Perm.refl _

theorem runP_bytes_perm :
    ∀ (ops : List POp) (s s' : PxState), runP ops s = some s' →
      (bytesOf s').Perm (bytesOf s) := by
  intro ops
  induction ops with
  | nil => intro s s' h; cases h; exact List.Perm.refl _
  | cons op ops ih =>
    intro s s' h
    unfold runP at h
    cases hst : pstep op s with
    | none => rw [hst] at h; exact absurd h (by simp)
    | some s₁ =>
      rw [hst] at h
      exact (ih _ _ h).trans (pstep_bytes_perm op s s₁ hst)

/-! ### Helper lemmas for claim C7 (idempotence of `replace_jobserver`
on well-formed endpoints) -/

theorem jsLit_eq : jsLit = '-' :: "-jobserver-fds=".toList := by decide

theorem jsLit_drop1 : jsLit.drop 1 = "-jobserver-fds=".toList := by decide

theorem jsLit_len : jsLit.length = 16 := by decide

theorem stripLit_cons_eq (a : Char) (p : List Char) (c : Char) (s : List Char) :
    stripLit (a :: p) (c :: s) = if a = c then stripLit p s else none := rfl

theorem stripLit_self_append : ∀ p t : List Char, stripLit p (p ++ t) = some t := by
  intro p
  induction p with
  | nil => intro t; rfl
  | cons a ps ih => intro t; simp [stripLit, ih]

theorem stripLit_none_of_startsWith_false {p s : List Char}
    (h : startsWith p s = false) : stripLit p s = none := by
  have hs := stripLit_isSome_eq_startsWith p s
  rw [h] at hs
  cases hst : stripLit p s with
  | none => rfl
  | some t => rw [hst] at hs; simp at hs

theorem startsWith_append_of_le : ∀ (p b y : List Char), p.length ≤ b.length →
    startsWith p (b ++ y) = startsWith p b := by
  intro p
  induction p with
  | nil => intro b y _; rfl
  | cons x xs ih =>
    intro b y hlen
    cases b with
    | nil => simp at hlen
    | cons c bs =>
      simp only [List.cons_append, startsWith]
      congr 1
      exact ih bs y (by simpa using hlen)

theorem jsLit_drop_no_overlap :
    ∀ k, k < 16 → 1 ≤ k → startsWith (jsLit.drop k) jsLit = false := by decide

theorem takeWhile_all_append {p : Char → Bool} :
    ∀ {D : List Char} (t : List Char), (∀ c ∈ D, p c = true) →
      (D ++ t).takeWhile p = D ++ t.takeWhile p ∧
      (D ++ t).dropWhile p = t.dropWhile p := by
  intro D
  induction D with
  | nil => intro t _; exact ⟨rfl, rfl⟩
  | cons d D ih =>
    intro t h
    have hd : p d = true := h d (by simp)
    have hrest := ih t (fun c hc => h c (by simp [hc]))
    constructor
    · simp [List.takeWhile_cons, hd, hrest.1]
    · simp [List.dropWhile_cons, hd, hrest.2]

theorem nonDigitHead_nil : nonDigitHead [] := by
  intro c t h
  exact absurd h (by simp)

theorem nonDigitHead_take_drop {u : List Char} (h : nonDigitHead u) :
    u.takeWhile Char.isDigit = [] ∧ u.dropWhile Char.isDigit = u := by
  cases u with
  | nil => exact ⟨rfl, rfl⟩
  | cons c t =>
    have hc : c.isDigit = false := h c t rfl
    simp [List.takeWhile_cons, List.dropWhile_cons, hc]

theorem nonDigitHead_of_takeWhile_nil {u : List Char}
    (h : u.takeWhile Char.isDigit = []) : nonDigitHead u := by
  intro c t ht
  subst ht
  by_cases hc : c.isDigit = true
  · rw [List.takeWhile_cons, if_pos hc] at h
    exact absurd h (by simp)
  · simpa using hc

theorem nonDigitHead_dropWhile (l : List Char) :
    nonDigitHead (l.dropWhile Char.isDigit) := by
  induction l with
  | nil => exact nonDigitHead_nil
  | cons a l ih =>
    by_cases ha : a.isDigit = true
    · rw [List.dropWhile_cons, if_pos ha]; exact ih
    · rw [List.dropWhile_cons, if_neg ha]
      intro c t h
      cases h
      simpa using ha

theorem mem_takeWhile_isDigit {l : List Char} :
    ∀ c ∈ l.takeWhile Char.isDigit, c.isDigit = true := by
  induction l with
  | nil => intro c hc; simp [List.takeWhile] at hc
  | cons a l ih =>
    intro c hc
    by_cases ha : a.isDigit = true
    · rw [List.takeWhile_cons, if_pos ha] at hc
      rcases List.mem_cons.mp hc with rfl | hc'
      · exact ha
      · exact ih c hc'
    · rw [List.takeWhile_cons, if_neg ha] at hc
      simp at hc

theorem tryMatchG_none_head {c : Char} {cs : List Char} (hc : c ≠ '-') :
    tryMatchG (c :: cs) = none := by
  unfold tryMatchG
  rw [jsLit_eq, stripLit_cons_eq, if_neg (fun h => hc h.symm)]

theorem tryMatchG_cons_dash (x : List Char) :
    tryMatchG ('-' :: x) = matchFromLit 1 x := by
  unfold tryMatchG matchFromLit
  rw [jsLit_drop1, jsLit_eq, stripLit_cons_eq, if_pos rfl]

theorem tryMatchG_ndh {s d1 d2 r : List Char}
    (h : tryMatchG s = some (d1, d2, r)) : nonDigitHead r := by
  unfold tryMatchG at h
  cases hstrip : stripLit jsLit s with
  | none => rw [hstrip] at h; exact absurd h (by simp)
  | some s1 =>
    rw [hstrip] at h
    simp only at h
    unfold digitTail at h
    by_cases h1 : (s1.takeWhile Char.isDigit).isEmpty
    · rw [if_pos h1] at h; exact absurd h (by simp)
    · rw [if_neg h1] at h
      cases hr2 : stripLit [','] (s1.dropWhile Char.isDigit) with
      | none => rw [hr2] at h; exact absurd h (by simp)
      | some s2 =>
        rw [hr2] at h
        simp only at h
        by_cases h2 : (s2.takeWhile Char.isDigit).isEmpty
        · rw [if_pos h2] at h; exact absurd h (by simp)
        · rw [if_neg h2] at h
          have : r = s2.dropWhile Char.isDigit := by cases h; rfl
          rw [this]
          exact nonDigitHead_dropWhile s2

theorem stripLit_single {a : Char} {s t : List Char}
    (h : stripLit [a] s = some t) : s = a :: t := by
  cases s with
  | nil => exact absurd h (by simp [stripLit])
  | cons c cs =>
    rw [stripLit_cons_eq] at h
    by_cases hac : a = c
    · rw [if_pos hac] at h
      cases h
      rw [hac]
    · rw [if_neg hac] at h
      exact absurd h (by simp)

/-- Unfolding `reSub` at an arbitrary matching string (the string cannot be
empty, since the pattern needs at least 18 characters). -/
theorem reSub_match_any {e s d1 d2 r : List Char}
    (h : tryMatchG s = some (d1, d2, r)) : reSub e s = e ++ reSub e r := by
  cases s with
  | nil =>
    exfalso
    unfold tryMatchG at h
    rw [show stripLit jsLit [] = none from by rw [jsLit_eq]; rfl] at h
    exact absurd h (by simp)
  | cons c cs => exact reSub_cons_match h

theorem mkEndpoint_cons (R W : List Char) :
    mkEndpoint R W = '-' :: ("-jobserver-fds=".toList ++ R ++ ',' :: W) := by
  unfold mkEndpoint
  rw [jsLit_eq]
  simp [List.cons_append]

theorem nonDigitHead_reSub (R W : List Char) :
    ∀ u, nonDigitHead u → nonDigitHead (reSub (mkEndpoint R W) u) := by
  intro u hu
  cases u with
  | nil => exact nonDigitHead_nil
  | cons c cs =>
    cases hm : tryMatchG (c :: cs) with
    | some trip =>
      obtain ⟨d1, d2, r⟩ := trip
      rw [reSub_cons_match hm, mkEndpoint_cons]
      intro a t h
      simp only [List.cons_append] at h
      cases h
      decide
    | none =>
      rw [reSub_cons_nomatch hm]
      intro a t h
      cases h
      exact hu c cs rfl

theorem reSub_digits_append (R W : List Char) :
    ∀ (D t : List Char), (∀ c ∈ D, c.isDigit = true) →
      reSub (mkEndpoint R W) (D ++ t) = D ++ reSub (mkEndpoint R W) t := by
  intro D
  induction D with
  | nil => intro t _; rfl
  | cons d D ih =>
    intro t hD
    have hd : d.isDigit = true := hD d (by simp)
    have hdne : d ≠ '-' := by
      intro h
      rw [h] at hd
      exact absurd hd (by decide)
    have hm : tryMatchG (d :: (D ++ t)) = none := tryMatchG_none_head hdne
    simp only [List.cons_append]
    rw [reSub_cons_nomatch hm, ih t (fun c hc => hD c (by simp [hc]))]

theorem tryMatchG_append_lit (x : List Char) :
    tryMatchG (jsLit ++ x) = digitTail x := by
  unfold tryMatchG
  rw [stripLit_self_append]

theorem tryMatchG_seam (R W : List Char) (hR : R ≠ []) (hW : W ≠ [])
    (hRd : ∀ c ∈ R, c.isDigit = true) (hWd : ∀ c ∈ W, c.isDigit = true)
    {u : List Char} (hu : nonDigitHead u) :
    tryMatchG (mkEndpoint R W ++ u) = some (R, W, u) := by
  have hshape : mkEndpoint R W ++ u = jsLit ++ (R ++ ',' :: (W ++ u)) := by
    simp [mkEndpoint, List.append_assoc]
  rw [hshape, tryMatchG_append_lit]
  unfold digitTail
  have h1 := takeWhile_all_append (',' :: (W ++ u)) hRd
  have hcommaT : (',' :: (W ++ u)).takeWhile Char.isDigit = [] := by
    rw [List.takeWhile_cons, if_neg (by decide)]
  have hcommaD : (',' :: (W ++ u)).dropWhile Char.isDigit = ',' :: (W ++ u) := by
    rw [List.dropWhile_cons, if_neg (by decide)]
  have hRE : R.isEmpty = false := by
    cases R with
    | nil => exact absurd rfl hR
    | cons a l => rfl
  rw [h1.1, hcommaT, List.append_nil, if_neg (by simp [hRE]), h1.2, hcommaD,
    stripLit_cons_eq, if_pos rfl]
  have h2 := takeWhile_all_append u hWd
  have hut := nonDigitHead_take_drop hu
  have hWE : W.isEmpty = false := by
    cases W with
    | nil => exact absurd rfl hW
    | cons a l => rfl
  rw [show stripLit [] (W ++ u) = some (W ++ u) from rfl]
  show (if ((W ++ u).takeWhile Char.isDigit).isEmpty = true then none
    else some (R, (W ++ u).takeWhile Char.isDigit, (W ++ u).dropWhile Char.isDigit)) =
      some (R, W, u)
  rw [h2.1, hut.1, List.append_nil, if_neg (by simp [hWE]), h2.2, hut.2]

theorem digitTail_reSub_none (R W : List Char) :
    ∀ {s1 : List Char}, digitTail s1 = none →
      digitTail (reSub (mkEndpoint R W) s1) = none := by
  intro s1 h
  have hres : reSub (mkEndpoint R W) s1 =
      s1.takeWhile Char.isDigit ++
        reSub (mkEndpoint R W) (s1.dropWhile Char.isDigit) := by
    conv_lhs =>
      rw [show s1 = s1.takeWhile Char.isDigit ++ s1.dropWhile Char.isDigit from
        (List.takeWhile_append_dropWhile Char.isDigit s1).symm]
    exact reSub_digits_append R W _ _ mem_takeWhile_isDigit
  have hndr : nonDigitHead (s1.dropWhile Char.isDigit) := nonDigitHead_dropWhile s1
  have hndr' : nonDigitHead (reSub (mkEndpoint R W) (s1.dropWhile Char.isDigit)) :=
    nonDigitHead_reSub R W _ hndr
  have htw : (reSub (mkEndpoint R W) s1).takeWhile Char.isDigit =
      s1.takeWhile Char.isDigit := by
    rw [hres, (takeWhile_all_append _ mem_takeWhile_isDigit).1,
      (nonDigitHead_take_drop hndr').1, List.append_nil]
  have hdw : (reSub (mkEndpoint R W) s1).dropWhile Char.isDigit =
      reSub (mkEndpoint R W) (s1.dropWhile Char.isDigit) := by
    rw [hres, (takeWhile_all_append _ mem_takeWhile_isDigit).2,
      (nonDigitHead_take_drop hndr').2]
  by_cases hD0 : (s1.takeWhile Char.isDigit).isEmpty
  · unfold digitTail
    rw [htw, if_pos hD0]
  · unfold digitTail at h
    rw [if_neg hD0] at h
    unfold digitTail
    rw [htw, if_neg hD0, hdw]
    cases hsr : stripLit [','] (s1.dropWhile Char.isDigit) with
    | none =>
      have hnone : stripLit [','] (reSub (mkEndpoint R W) (s1.dropWhile Char.isDigit)) =
          none := by
        cases hdwc : s1.dropWhile Char.isDigit with
        | nil => rfl
        | cons c t =>
          have hcne : ¬(',' = c) := by
            intro hc
            rw [hdwc, stripLit_cons_eq, if_pos hc] at hsr
            simp [stripLit] at hsr
          cases hm : tryMatchG (c :: t) with
          | some trip =>
            obtain ⟨d1, d2, r⟩ := trip
            rw [reSub_cons_match hm, mkEndpoint_cons]
            simp only [List.cons_append]
            rw [stripLit_cons_eq, if_neg (by decide)]
          | none =>
            rw [reSub_cons_nomatch hm, stripLit_cons_eq, if_neg hcne]
      rw [hnone]
    | some s2 =>
      rw [hsr] at h
      simp only at h
      have hs2e : (s2.takeWhile Char.isDigit).isEmpty = true := by
        by_cases h2 : (s2.takeWhile Char.isDigit).isEmpty
        · exact h2
        · rw [if_neg h2] at h; exact absurd h (by simp)
      have hrshape : s1.dropWhile Char.isDigit = ',' :: s2 := stripLit_single hsr
      have hnds2 : nonDigitHead s2 := by
        apply nonDigitHead_of_takeWhile_nil
        cases htws2 : s2.takeWhile Char.isDigit with
        | nil => rfl
        | cons a l => rw [htws2] at hs2e; simp at hs2e
      have hre : reSub (mkEndpoint R W) (s1.dropWhile Char.isDigit) =
          ',' :: reSub (mkEndpoint R W) s2 := by
        rw [hrshape]
        exact reSub_cons_nomatch (tryMatchG_none_head (by decide))
      rw [hre, stripLit_cons_eq, if_pos rfl,
        show stripLit [] (reSub (mkEndpoint R W) s2) =
          some (reSub (mkEndpoint R W) s2) from rfl]
      show (if ((reSub (mkEndpoint R W) s2).takeWhile Char.isDigit).isEmpty = true
        then none
        else some (s1.takeWhile Char.isDigit,
          (reSub (mkEndpoint R W) s2).takeWhile Char.isDigit,
          (reSub (mkEndpoint R W) s2).dropWhile Char.isDigit)) = none
      rw [(nonDigitHead_take_drop (nonDigitHead_reSub R W _ hnds2)).1]
      rfl

theorem matchFromLit_reSub_none (R W : List Char) :
    ∀ (s : List Char) (k : Nat), 1 ≤ k → k ≤ 15 → matchFromLit k s = none →
      matchFromLit k (reSub (mkEndpoint R W) s) = none := by
  intro s
  induction s with
  | nil =>
    intro k hk1 hk15 _
    show matchFromLit k [] = none
    unfold matchFromLit
    have hlen : (jsLit.drop k).length = 16 - k := by
      rw [List.length_drop, jsLit_len]
    cases hdk : jsLit.drop k with
    | nil => rw [hdk] at hlen; simp at hlen; omega
    | cons a p => rfl
  | cons c cs ih =>
    intro k hk1 hk15 hnone
    cases hm : tryMatchG (c :: cs) with
    | some trip =>
      obtain ⟨d1, d2, r⟩ := trip
      rw [reSub_cons_match hm]
      unfold matchFromLit
      have hshape : mkEndpoint R W ++ reSub (mkEndpoint R W) r =
          jsLit ++ (R ++ ',' :: W ++ reSub (mkEndpoint R W) r) := by
        simp [mkEndpoint, List.append_assoc]
      rw [hshape]
      have hsw : startsWith (jsLit.drop k)
          (jsLit ++ (R ++ ',' :: W ++ reSub (mkEndpoint R W) r)) = false := by
        rw [startsWith_append_of_le _ _ _ (by rw [List.length_drop, jsLit_len]; omega)]
        exact jsLit_drop_no_overlap k (by omega) hk1
      rw [stripLit_none_of_startsWith_false hsw]
    | none =>
      rw [reSub_cons_nomatch hm]
      have hlen : (jsLit.drop k).length = 16 - k := by
        rw [List.length_drop, jsLit_len]
      cases hdk : jsLit.drop k with
      | nil => rw [hdk] at hlen; simp at hlen; omega
      | cons a p =>
        have hp : p = jsLit.drop (k + 1) := by
          have ht : (jsLit.drop k).tail = jsLit.drop (k + 1) := List.tail_drop jsLit k
          rw [hdk] at ht
          simpa using ht
        by_cases hac : a = c
        · have hrec : matchFromLit (k + 1) cs = none := by
            unfold matchFromLit at hnone
            rw [hdk, stripLit_cons_eq, if_pos hac] at hnone
            unfold matchFromLit
            rw [← hp]
            exact hnone
          by_cases hk15' : k + 1 ≤ 15
          · have hres := ih (k + 1) (by omega) hk15' hrec
            unfold matchFromLit at hres ⊢
            rw [hdk, stripLit_cons_eq, if_pos hac, hp]
            exact hres
          · have hk15eq : k = 15 := by omega
            have hp16 : p = [] := by
              rw [hp, hk15eq]
              decide
            have hdt : digitTail cs = none := by
              have hthis := hrec
              unfold matchFromLit at hthis
              rw [hk15eq, show jsLit.drop (15 + 1) = ([] : List Char) from by decide,
                show stripLit ([] : List Char) cs = some cs from rfl] at hthis
              exact hthis
            have hdt' := digitTail_reSub_none R W hdt
            unfold matchFromLit
            rw [hdk, stripLit_cons_eq, if_pos hac, hp16,
              show stripLit ([] : List Char) (reSub (mkEndpoint R W) cs) =
                some (reSub (mkEndpoint R W) cs) from rfl]
            exact hdt'
        · unfold matchFromLit
          rw [hdk, stripLit_cons_eq, if_neg hac]

theorem reSub_stable (R W : List Char) (hR : R ≠ []) (hW : W ≠ [])
    (hRd : ∀ c ∈ R, c.isDigit = true) (hWd : ∀ c ∈ W, c.isDigit = true) :
    ∀ f, reSub (mkEndpoint R W) (reSub (mkEndpoint R W) f) =
      reSub (mkEndpoint R W) f := by
  have key : ∀ (n : Nat) (f : List Char), f.length ≤ n →
      reSub (mkEndpoint R W) (reSub (mkEndpoint R W) f) =
        reSub (mkEndpoint R W) f := by
    intro n
    induction n with
    | zero =>
      intro f hf
      have hfe : f = [] := List.eq_nil_of_length_eq_zero (Nat.le_zero.mp hf)
      subst hfe
      rfl
    | succ n ihn =>
      intro f hf
      cases f with
      | nil => rfl
      | cons c cs =>
        cases hm : tryMatchG (c :: cs) with
        | some trip =>
          obtain ⟨d1, d2, r⟩ := trip
          rw [reSub_cons_match hm]
          have hlt := tryMatchG_length hm
          have hu : reSub (mkEndpoint R W) (reSub (mkEndpoint R W) r) =
              reSub (mkEndpoint R W) r :=
            ihn r (by simp at hf hlt ⊢; omega)
          have hndr : nonDigitHead r := tryMatchG_ndh hm
          have hndu := nonDigitHead_reSub R W _ hndr
          have hseam := tryMatchG_seam R W hR hW hRd hWd hndu
          rw [reSub_match_any hseam, hu]
        | none =>
          rw [reSub_cons_nomatch hm]
          have hv : reSub (mkEndpoint R W) (reSub (mkEndpoint R W) cs) =
              reSub (mkEndpoint R W) cs :=
            ihn cs (by simp at hf ⊢; omega)
          by_cases hc : c = '-'
          · subst hc
            have h1 : matchFromLit 1 cs = none := by
              rw [← tryMatchG_cons_dash]
              exact hm
            have h2 := matchFromLit_reSub_none R W cs 1 le_rfl (by omega) h1
            have hm2 : tryMatchG ('-' :: reSub (mkEndpoint R W) cs) = none := by
              rw [tryMatchG_cons_dash]
              exact h2
            rw [reSub_cons_nomatch hm2, hv]
          · rw [reSub_cons_nomatch (tryMatchG_none_head hc), hv]
  exact fun f => key f.length f le_rfl

theorem hasSub_of_startsWith_hasSub {a n : List Char} (hsw : startsWith a n = true) :
    ∀ {s : List Char}, hasSub n s = true → hasSub a s = true := by
  intro s
  induction s with
  | nil =>
    intro h
    have hn : n = [] := by
      cases n with
      | nil => rfl
      | cons x xs => exact absurd h (by simp [hasSub])
    subst hn
    cases a with
    | nil => exact h
    | cons x xs => exact absurd hsw (by simp [startsWith])
  | cons c cs ih =>
    intro h
    simp only [hasSub, Bool.or_eq_true] at h
    rcases h with h1 | h2
    · exact hasSub_of_startsWith (startsWith_trans a n _ hsw h1)
    · exact hasSub_tail (ih h2)

theorem startsWith_jobserver_endpoint (R W : List Char) :
    startsWith ("--jobserver".toList) (mkEndpoint R W) = true := by
  unfold mkEndpoint
  rw [show jsLit ++ R ++ ',' :: W = jsLit ++ (R ++ ',' :: W) from by
    simp [List.append_assoc]]
  rw [startsWith_append_of_le _ _ _ (by rw [jsLit_len]; decide)]
  decide

/-! ## Claim C1 (code bug: `cleanup_client` leaks tokens)

The reclaim loop of `cleanup_client` iterates over the live list
`self.cid2tokens[cid]` while `_unassign_token` removes elements from it, so
it skips every other element.  With two tokens still assigned and
`allow_tokens=True`, one token is never unassigned: `_del_client` then
deletes the child record with the token still in it, the token disappears
from both the free pool and every child list, and `token2cid` keeps a stale
entry. -/

/-- The state reached by: server of size 2; register child 7; two grants to
child 7 (each with an empty grant-pipe buffer); `cleanup_client(7,
allow_tokens=True)` with no bytes pending on either pipe. -/
def c1state : SrvState := ⟨[0], [], [(1, 7)]⟩

/-- C1: the pool/assignment invariant is violated in a reachable state: the
run shown ends in `c1state`, where token `1` is in neither the free pool
nor any child's list although `token2cid` still maps it to the deleted
child `7`; in particular `free ∪ ⋃ cid2tokens = {0} ≠ {0, 1}`.  The claim's
invariant `TokenInv 2` is therefore false after this operation sequence. -/
theorem c1_cleanup_client_token_leak :
    runS [SOp.addClient 7, SOp.grant 7, SOp.grant 7, SOp.cleanup 7 0 0 true]
        (initServer 2) = some c1state ∧
    lookupKey 1 c1state.token2cid = some 7 ∧
    lookupKey 7 c1state.cid2tokens = none ∧
    ¬ TokenInv 2 c1state := by
  refine ⟨by decide, by decide, by decide, ?_⟩
  intro hinv
  exact absurd hinv.1.length_eq (by decide)

/-! ## Claim C2 (corrected: FIFO head, not lowest id)

`_get_next_token` returns `self._tokens[0]`, and `_unassign_token` appends
returned tokens at the end of the free list, so after a return the head of
the list need not be the smallest free id. -/

/-- The state reached by: server of size 2; register child 7; grant token 0
to it; child returns it.  The free list is now `[1, 0]`. -/
def c2state : SrvState := ⟨[1, 0], [(7, [])], []⟩

/-- C2 counterexample: in the reachable state `c2state` the next grant
selects token `1` although token `0` — a strictly smaller id — is free, so
the selection is not the lowest-numbered free token. -/
theorem c2_counterexample_not_lowest :
    runS [SOp.addClient 7, SOp.grant 7, SOp.ret 7] (initServer 2) = some c2state ∧
    get_next_token c2state = some 1 ∧ 0 ∈ c2state.tokens ∧ 0 < 1 := by
  exact ⟨by decide, by decide, by decide, by decide⟩

/-- C2 amended: the grant selects the head (first element) of the free
list — FIFO order, since reclaimed tokens are appended at the end.  This
coincides with the lowest free id exactly when the free list is sorted
ascending (e.g. in the initial state), but not in general. -/
theorem c2_amended_head_selection :
    ∀ (s : SrvState) (t : Nat), get_next_token s = some t →
      s.tokens.head? = some t ∧
      (s.tokens.Pairwise (· ≤ ·) → ∀ u ∈ s.tokens, t ≤ u) := by
  intro s t h
  refine ⟨h, ?_⟩
  intro hsorted u hu
  cases htk : s.tokens with
  | nil => rw [htk] at hu; simp at hu
  | cons a l =>
    have ht : t = a := by
      unfold get_next_token at h
      rw [htk] at h
      simpa using h.symm
    rw [htk] at hsorted hu
    subst ht
    rcases List.mem_cons.mp hu with rfl | hu'
    · exact le_refl _
    · exact (List.pairwise_cons.mp hsorted).1 u hu'

theorem c2_amended_witness :
    (initServer 2).tokens.head? = some 0 ∧
      ((initServer 2).tokens.Pairwise (· ≤ ·) → ∀ u ∈ (initServer 2).tokens, 0 ≤ u) :=
  c2_amended_head_selection (initServer 2) 0 (by decide)

/-! ## Claim C3 (corrected: the shrink step keeps zero tokens, not one)

`_shrink_tokens` iterates over a copy of the whole free list and returns
every free token upstream; the post-poll hook merely *triggers* it only
when more than one token is free.  So when it runs, zero tokens remain. -/

def c3ops : List POp :=
  [POp.addClient 5, POp.grant 5, POp.grant 5, POp.ret 5, POp.ret 5, POp.pollEnd]

/-- After growing twice (bytes 65, 66), granting twice and collecting two
returns, the post-poll shrink runs with two free tokens. -/
def c3state : PxState := ⟨⟨[], [(5, [])], []⟩, [], [], [65, 66]⟩

/-- C3 counterexample: at the end of the poll cycle shown, two tokens sat
free, and after the shrink step zero tokens remain in the pool — not
exactly one as claimed. -/
theorem c3_counterexample_zero_remain :
    runP c3ops (pinit [65, 66]) = some c3state ∧
    c3state.srv.tokens.length = 0 ∧ c3state.srv.tokens.length ≠ 1 := by
  exact ⟨by decide, by decide, by decide⟩

/-- C3 amended: whenever `_shrink_tokens` completes, it has returned every
free token (one upstream byte per free token) and the free pool is empty;
the post-poll hook invokes it only when more than one token sits free. -/
theorem c3_amended_shrink_returns_all :
    ∀ s s' : PxState, shrink_tokens s = some s' →
      s'.srv.tokens = [] ∧
      s'.upReturned.length = s.upReturned.length + s.srv.tokens.length := by
  intro s s' h
  exact shrinkLoop_spec s.srv.tokens s s' rfl h

theorem c3_amended_witness :
    (⟨⟨[], [], []⟩, [], [], [65]⟩ : PxState).srv.tokens = [] ∧
    (⟨⟨[], [], []⟩, [], [], [65]⟩ : PxState).upReturned.length =
      (⟨⟨[0], [], []⟩, [(0, 65)], [], []⟩ : PxState).upReturned.length +
      (⟨⟨[0], [], []⟩, [(0, 65)], [], []⟩ : PxState).srv.tokens.length :=
  c3_amended_shrink_returns_all _ _ (by decide)

/-! ## Claim C4 (confirmed: the proxy is byte-faithful)

Every byte the proxy sends upstream was first received from upstream: along
any run, the returned bytes, the bytes recorded in `token2bytes`, and the
bytes the upstream has not yet vended are together a permutation of the
upstream's byte sequence — the proxy neither fabricates nor loses a byte;
in particular it never sends an internal token id in place of the original
byte.  The spec's scenario — an upstream vending `b'A'`, `b'B'` for two
grants — ends with exactly those two bytes returned. -/

def c4ops : List POp :=
  [POp.addClient 3, POp.addClient 4, POp.grant 3, POp.grant 4,
   POp.ret 3, POp.ret 4, POp.pollEnd]

/-- The final state of the two-children scenario with upstream bytes
`b'A' = 65` and `b'B' = 66`: both bytes returned upstream, nothing held. -/
def c4state : PxState := ⟨⟨[], [(3, []), (4, [])], []⟩, [], [], [65, 66]⟩

/-- C4: (1) for every upstream byte sequence and every operation run, the
bytes returned upstream together with the bytes still recorded and the
bytes not yet vended are a permutation of the vended sequence (so returns
are byte-faithful, with no fabrication); (2) in the `b'A'`/`b'B'` scenario
the proxy ends having returned exactly those bytes, in order of token id. -/
theorem c4_proxy_byte_faithful :
    (∀ (vended : List Nat) (ops : List POp) (s : PxState),
        runP ops (pinit vended) = some s → (bytesOf s).Perm vended) ∧
    runP c4ops (pinit [65, 66]) = some c4state ∧
    c4state.upReturned.Perm [65, 66] := by
  refine ⟨?_, by decide, by decide⟩
  intro vended ops s h
  have hp := runP_bytes_perm ops (pinit vended) s h
  simpa [bytesOf, pinit] using hp

theorem c4_witness : (bytesOf c4state).Perm [65, 66] :=
  c4_proxy_byte_faithful.1 [65, 66] c4ops c4state (by decide)

/-! ## Claim C5 (code bug: `JobServerProxy.cleanup` cannot run)

`JobServerProxy.cleanup` first calls `server.JobServer.cleanup(self, ...)`,
but the class `JobServer` defines no method `cleanup` (its methods are
listed in `jobServerMethods`), so every call raises `AttributeError` —
before any child teardown, shrink, or client release can happen.  (The
proxy test driver, `tests/utils/proxy.py` line 64, calls
`jobproxy.cleanup(log=log)`.) -/

theorem c5_proxy_cleanup_attribute_error :
    ∀ s : PxState, proxy_cleanup s = none := by
  intro s
  have h : jobServerMethods.contains "cleanup" = false := by decide
  unfold proxy_cleanup
  rw [h]
  rfl

/-! ## Claim C6 (confirmed: the suppression law of `should_run_submake`) -/

/-- C6: for every (ASCII) flag string, `should_run_submake f` is `False`
iff `f` contains a whitespace-delimited token that does not start with
`'-'` and whose short-flag cluster contains `'n'` or `'q'` — proved for all
strings, which subsumes the exhaustive enumeration up to length 4 — and the
five quoted examples hold. -/
theorem c6_should_run_submake_law :
    (∀ f : List Char, should_run_submake f = false ↔ specSuppressed f = true) ∧
    should_run_submake "".toList = true ∧
    should_run_submake "n".toList = false ∧
    should_run_submake "nq".toList = false ∧
    should_run_submake "--quiant".toList = true ∧
    should_run_submake "--blah n".toList = false := by
  refine ⟨fun f => ?_, by decide, by decide, by decide, by decide, by decide⟩
  unfold should_run_submake
  rw [regexSearch_eq_specSuppressed]
  cases specSuppressed f <;> simp

/-! ## Claim C7 (corrected: idempotence needs a well-formed endpoint)

`re.sub` replaces *every* `--jobserver-fds=<int>,<int>` match with the
caller-supplied replacement string, verbatim.  If the replacement is itself
a well-formed endpoint this is idempotent, but for an arbitrary endpoint
string it is not: with `e = '--jobserver-fds=1,2,3'`, the first application
yields `e` itself, and the second finds the fresh match
`--jobserver-fds=1,2` inside it and substitutes again, yielding
`--jobserver-fds=1,2,3,3`. -/

/-- C7 counterexample: `replace_jobserver` applied twice with the endpoint
string `--jobserver-fds=1,2,3` changes the string on the second
application, so the claimed idempotence for *every* endpoint string is
false. -/
theorem c7_counterexample_not_idempotent :
    replace_jobserver ("--jobserver-fds=4,5".toList) ("--jobserver-fds=1,2,3".toList) =
      some ("--jobserver-fds=1,2,3".toList) ∧
    replace_jobserver ("--jobserver-fds=1,2,3".toList) ("--jobserver-fds=1,2,3".toList) =
      some ("--jobserver-fds=1,2,3,3".toList) ∧
    ("--jobserver-fds=1,2,3,3".toList : List Char) ≠ "--jobserver-fds=1,2,3".toList := by
  exact ⟨by decide, by decide, by decide⟩

/-- C7 amended: for every flag string and every *well-formed* endpoint
`e = --jobserver-fds=R,W` (with `R`, `W` non-empty digit strings — the
shape every caller in the sources supplies), a successful
`replace_jobserver f e = g` is a fixed point: `replace_jobserver g e = g`. -/
theorem c7_amended_endpoint_idempotent :
    ∀ (f e g : List Char), endpointForm e →
      replace_jobserver f e = some g → replace_jobserver g e = some g := by
  intro f e g he hrep
  obtain ⟨R, W, hR, hW, hRd, hWd, rfl⟩ := he
  unfold replace_jobserver at hrep
  by_cases hjs : has_jobserver f = true
  · rw [hjs, if_pos rfl] at hrep
    by_cases hsub : hasSub (mkEndpoint R W) (reSub (mkEndpoint R W) f) = true
    · rw [if_pos hsub] at hrep
      have hg : g = reSub (mkEndpoint R W) f := by cases hrep; rfl
      subst hg
      have hstab := reSub_stable R W hR hW hRd hWd f
      have hjs2 : has_jobserver (reSub (mkEndpoint R W) f) = true := by
        unfold has_jobserver
        exact hasSub_of_startsWith_hasSub (startsWith_jobserver_endpoint R W) hsub
      unfold replace_jobserver
      rw [hjs2, if_pos rfl, hstab, if_pos hsub]
    · rw [if_neg hsub] at hrep
      exact absurd hrep (by simp)
  · have hjsf : has_jobserver f = false := by
      revert hjs
      cases has_jobserver f <;> simp
    rw [hjsf] at hrep
    simp at hrep
    subst hrep
    unfold replace_jobserver
    rw [hjsf]
    rfl

theorem c7_amended_witness :
    replace_jobserver ("a --jobserver-fds=6,7 b".toList) (mkEndpoint ['6'] ['7']) =
      some ("a --jobserver-fds=6,7 b".toList) :=
  c7_amended_endpoint_idempotent ("a --jobserver-fds=4,5 b".toList)
    (mkEndpoint ['6'] ['7']) ("a --jobserver-fds=6,7 b".toList)
    ⟨['6'], ['7'], by decide, by decide, by decide, by decide, rfl⟩
    (by decide)

/-! ## Claim C8 (confirmed: low descriptor numbers are rejected) -/

/-- C8: `fds_for_jobserver` parses the first `--jobserver-fds=<int>,<int>`
match; whenever either parsed integer is `≤ 2` it raises (modelled `none`)
instead of returning the pair; and the two quoted examples hold.  (The code
raises `AssertionError`; the spec's name for this malformed-flags failure
is `ConfigError`.) -/
theorem c8_fds_for_jobserver_low_fd_raises :
    (∀ (f : List Char) (rd wr : Nat), findJobserverFds f = some (rd, wr) →
      rd ≤ 2 ∨ wr ≤ 2 → fds_for_jobserver f = none) ∧
    fds_for_jobserver ("random --jobserver-fds=4,5 stuff".toList) = some (some (4, 5)) ∧
    fds_for_jobserver ("random --jobserver-fds=1,5 stuff".toList) = none := by
  refine ⟨?_, by decide, by decide⟩
  intro f rd wr hfind hle
  have hjs : has_jobserver f = true := has_jobserver_of_find hfind
  unfold fds_for_jobserver
  rw [hjs, if_pos rfl, hfind]
  show (if 2 < rd then if 2 < wr then some (some (rd, wr)) else none else none) = none
  rcases Nat.lt_or_ge 2 rd with h2rd | h2rd
  · have hwr : wr ≤ 2 := by rcases hle with h | h; omega; exact h
    rw [if_pos h2rd, if_neg (by omega)]
  · rw [if_neg (by omega)]

theorem c8_witness :
    findJobserverFds ("random --jobserver-fds=1,5 stuff".toList) = some (1, 5) ∧
    fds_for_jobserver ("random --jobserver-fds=1,5 stuff".toList) = none :=
  ⟨by decide, (c8_fds_for_jobserver_low_fd_raises.1 _ 1 5 (by decide) (Or.inl (by decide)))⟩

/-! ## Claim C9 (corrected: only `--jobserver-fds` is recognized)

`_JOBSERVER_REGEX` matches only `--jobserver-fds=<int>,<int>`.  A flag
string advertising `--jobserver-auth=R,W` makes `has_jobserver` true (the
substring `--jobserver` occurs) but gives the regex nothing to match, so
`assert job_re` fails: extraction raises instead of returning `(R, W)`. -/

/-- C9 counterexample: with `MAKEFLAGS` = `--jobserver-auth=4,5` (both
descriptors > 2), extraction raises (`none`) rather than returning
`(4, 5)`. -/
theorem c9_counterexample_auth_rejected :
    fds_for_jobserver ("--jobserver-auth=4,5".toList) = none ∧
    fds_for_jobserver ("--jobserver-auth=4,5".toList) ≠ some (some (4, 5)) := by
  exact ⟨by decide, by decide⟩

/-- C9 amended: the codec recognizes only the token
`--jobserver-fds=R,W`; for every flag string whose first such match parses
to `(rd, wr)` with both greater than 2, extraction succeeds and returns
exactly that pair. -/
theorem c9_amended_fds_recognized :
    ∀ (f : List Char) (rd wr : Nat), findJobserverFds f = some (rd, wr) →
      2 < rd → 2 < wr → fds_for_jobserver f = some (some (rd, wr)) := by
  intro f rd wr hfind hrd hwr
  have hjs : has_jobserver f = true := has_jobserver_of_find hfind
  unfold fds_for_jobserver
  rw [hjs, if_pos rfl, hfind]
  show (if 2 < rd then if 2 < wr then some (some (rd, wr)) else none else none) =
    some (some (rd, wr))
  rw [if_pos hrd, if_pos hwr]

theorem c9_amended_witness :
    fds_for_jobserver ("random --jobserver-fds=4,5 stuff".toList) = some (some (4, 5)) :=
  c9_amended_fds_recognized _ 4 5 (by decide) (by decide) (by decide)

/-! ## Claim C10 (confirmed: identity when no jobserver advertised) -/

/-- C10: when the flag string does not contain the substring
`--jobserver`, `replace_jobserver` returns it unchanged, for every
replacement endpoint. -/
theorem c10_replace_jobserver_identity :
    ∀ f e : List Char, has_jobserver f = false → replace_jobserver f e = some f := by
  intro f e h
  unfold replace_jobserver
  rw [h]
  rfl

theorem c10_witness :
    has_jobserver ("-j4 -k".toList) = false ∧
    replace_jobserver ("-j4 -k".toList) ("--jobserver-fds=6,7".toList) =
      some ("-j4 -k".toList) :=
  ⟨by decide, c10_replace_jobserver_identity _ _ (by decide)⟩

end MakeJobserver
